import Mathlib

/-!
Shallow embedding of the metadata-store and collection layer of the
repository: `src/MDSynthesis/Core/Files.py` (the `File` locking wrappers and
the `ContainerFile` metadata store) and `src/src/datreant/core/collections.py`
(the `Bundle` membership set).  Python tables are modelled as Lean lists,
Python exceptions as an `Except` error channel, and the filesystem-dependent
primitives (`os.path.abspath`, `os.path.dirname`) as explicit function
parameters or pre-computed arguments.
-/

namespace Datreant

/-- Python exception kinds raised by the modelled code paths. -/
inductive PyErr where
  | nameError
  | attributeError
  | noSuchNode
  | indexError
  | ioError
  | typeError
deriving DecidableEq, Repr

/-! ### Row-index machinery shared by `del_tags`, `del_categories` and
`Bundle._del_members`.

All three follow the same source pattern: scan rows collecting the indices
of matching rows, then delete them one at a time, shifting each stored index
down by the number of rows already removed (`table.remove_row(i-j); j=j+1`).
-/

/-- Indices (in increasing scan order) of the rows satisfying `p`; this is
what the `rowlist.append(row.nrow)` scan loops compute. -/
def idxsOf (p : α → Bool) : List α → List Nat
  | [] => []
  | x :: xs => (if p x then [0] else []) ++ (idxsOf p xs).map (· + 1)

/-- The deletion loop `for i in rowlist: table.remove_row(i-j); j=j+1`. -/
def eraseLoop : List α → List Nat → Nat → List α
  | l, [], _ => l
  | l, i :: rest, j => eraseLoop (l.eraseIdx (i - j)) rest (j + 1)

/-! ### ContainerFile tables (`src/MDSynthesis/Core/Files.py`)

The metadata file holds four tables: `meta` (identity record), `coordinator`,
`tags` and `categories`.  A table that has not been created yet is `none`;
the `meta` table is kept as a row list because one broken code path creates
the table without appending its row. -/

/-- One row of the `meta` table (`ContainerFile._Meta`); a freshly appended
row leaves unset string columns at the PyTables default `''`. -/
structure MetaRow where
  uuid : String
  name : String
  containertype : String
  location : String
  version : String
deriving DecidableEq, Repr

/-- A `meta` row with every column at the default `''`. -/
def blankMeta : MetaRow := ⟨"", "", "", "", ""⟩

/-- The tables of one container metadata file. -/
structure ContainerState where
  meta : Option (List MetaRow)
  coordinator : Option (Option String)
  tags : Option (List String)
  categories : Option (List (String × String))
deriving DecidableEq, Repr

/-- A file that was just created: no tables exist yet. -/
def emptyContainer : ContainerState := ⟨none, none, none, none⟩

/-- `ContainerFile.get_uuid`: read `meta` column `uuid`, row 0. -/
def getUuid (s : ContainerState) : Except PyErr String :=
  match s.meta with
  | none => .error .noSuchNode
  | some [] => .error .indexError
  | some (m :: _) => .ok m.uuid

/-- `ContainerFile.get_name`. -/
def getName (s : ContainerState) : Except PyErr String :=
  match s.meta with
  | none => .error .noSuchNode
  | some [] => .error .indexError
  | some (m :: _) => .ok m.name

/-- `ContainerFile.get_containertype`. -/
def getContainertype (s : ContainerState) : Except PyErr String :=
  match s.meta with
  | none => .error .noSuchNode
  | some [] => .error .indexError
  | some (m :: _) => .ok m.containertype

/-- `ContainerFile.get_location`. -/
def getLocation (s : ContainerState) : Except PyErr String :=
  match s.meta with
  | none => .error .noSuchNode
  | some [] => .error .indexError
  | some (m :: _) => .ok m.location

/-- `ContainerFile.get_version`. -/
def getVersion (s : ContainerState) : Except PyErr String :=
  match s.meta with
  | none => .error .noSuchNode
  | some [] => .error .indexError
  | some (m :: _) => .ok m.version

/-- `ContainerFile.update_uuid`: patch `uuid` in place, or create the `meta`
table with a fresh row.  The fresh value `str(uuid4())` is passed in as
`fresh`. -/
def updUuid (fresh : String) (s : ContainerState) :
    Except PyErr Unit × ContainerState :=
  match s.meta with
  | some [] => (.error .indexError, s)
  | some (m :: rest) =>
      (.ok (), { s with meta := some ({ m with uuid := fresh } :: rest) })
  | none => (.ok (), { s with meta := some [{ blankMeta with uuid := fresh }] })

/-- The *effective* `ContainerFile.update_name`: the class body defines
`update_name` twice, and the second definition (lines 423-438, the intended
version updater) shadows the first.  Its body assigns
`table.cols.version[0] = version` where `version` is an undefined name, so
every call raises `NameError`.  When the `meta` table is absent the
`NoSuchNodeError` branch creates the table and then hits the same undefined
name before the row is appended, leaving an empty table behind. -/
def updName (_name : String) (s : ContainerState) :
    Except PyErr Unit × ContainerState :=
  match s.meta with
  | some _ => (.error .nameError, s)
  | none => (.error .nameError, { s with meta := some [] })

/-- `create` calls `self.update_version()`, but no method of that name exists
anywhere in the class (the intended one was mis-typed as the second
`update_name`), so the call would raise `AttributeError`. -/
def updVersionCall (s : ContainerState) : Except PyErr Unit × ContainerState :=
  (.error .attributeError, s)

/-- `ContainerFile.update_containertype`: only `'Sim'` and `'Group'` are
accepted; any other value falls through the guard and the method does
nothing at all. -/
def updContainertype (ct : String) (s : ContainerState) :
    Except PyErr Unit × ContainerState :=
  if ct = "Sim" ∨ ct = "Group" then
    match s.meta with
    | some [] => (.error .indexError, s)
    | some (m :: rest) =>
        (.ok (), { s with meta := some ({ m with containertype := ct } :: rest) })
    | none =>
        (.ok (), { s with meta := some [{ blankMeta with containertype := ct }] })
  else (.ok (), s)

/-- `ContainerFile.update_location`: stores `os.path.dirname(self.filename)`,
passed in pre-computed as `dir`.  Note the source's create branch never calls
`table.row.append()`, so a missing `meta` table becomes an *empty* table. -/
def updLocation (dir : String) (s : ContainerState) :
    Except PyErr Unit × ContainerState :=
  match s.meta with
  | some [] => (.error .indexError, s)
  | some (m :: rest) =>
      (.ok (), { s with meta := some ({ m with location := dir } :: rest) })
  | none => (.ok (), { s with meta := some [] })

/-- `ContainerFile.update_coordinator`: stores `os.path.abspath(coordinator)`
(the caller passes the already-normalized path) or the null marker. -/
def updCoordinator (c : Option String) (s : ContainerState) :
    Except PyErr Unit × ContainerState :=
  (.ok (), { s with coordinator := some c })

/-- `ContainerFile.get_coordinator`. -/
def getCoordinator (s : ContainerState) : Except PyErr (Option String) :=
  match s.coordinator with
  | none => .error .noSuchNode
  | some c => .ok c

/-- `ContainerFile.get_tags`: list of the `tag` column. -/
def getTags (s : ContainerState) : Except PyErr (List String) :=
  match s.tags with
  | none => .error .noSuchNode
  | some t => .ok t

/-- Table-level `ContainerFile.add_tags`: deduplicate the argument list
(`set(str(tag) for tag in tags)`), drop the tags already present in the
table, append the rest. -/
def addTagsT (t : List String) (ts : List String) : List String :=
  t ++ (ts.dedup.filter fun x => decide (x ∉ t))

/-- `ContainerFile.add_tags` on the file state: a missing `tags` table is
created empty first. -/
def sAddTags (ts : List String) (s : ContainerState) :
    Except PyErr Unit × ContainerState :=
  (.ok (), { s with tags := some (addTagsT (s.tags.getD []) ts) })

/-- Table-level `ContainerFile.del_tags`: with `all=True` the table is
dropped and recreated empty; otherwise matching row indices are collected,
with a special full-removal branch, and removed by the shifting loop. -/
def delTagsT (t : List String) (ts : List String) (all : Bool) : List String :=
  if all then []
  else
    let ts' := ts.dedup
    let rowlist := idxsOf (fun x => decide (x ∈ ts')) t
    if rowlist.length = t.length then [] else eraseLoop t rowlist 0

/-- `ContainerFile.del_tags` on the file state: `get_node('/', 'tags')` is
unguarded, so a missing table raises. -/
def sDelTags (ts : List String) (all : Bool) (s : ContainerState) :
    Except PyErr Unit × ContainerState :=
  match s.tags with
  | none => (.error .noSuchNode, s)
  | some t => (.ok (), { s with tags := some (delTagsT t ts all) })

/-- `ContainerFile.get_categories`: the dict comprehension
`{x['category']: x['value'] for x in table.iterrows()}`; a later row with the
same key overwrites an earlier one, so lookup takes the last matching row. -/
def catVal (t : List (String × String)) (k : String) : Option String :=
  ((t.filter fun r => decide (r.1 = k)).getLast?).map (·.2)

/-- The row-update scan of `ContainerFile.add_categories`: walk the existing
rows in order; a row whose key is still pending gets its value overwritten in
place and the key is popped from the pending dict.  Returns the updated rows
and the still-pending new entries. -/
def updRows : List (String × String) → List (String × String) →
    List (String × String) × List (String × String)
  | [], cats => ([], cats)
  | (k, v) :: rest, cats =>
      match cats.find? (fun c => decide (c.1 = k)) with
      | some c =>
          let res := updRows rest (cats.eraseP (fun d => decide (d.1 = k)))
          ((k, c.2) :: res.1, res.2)
      | none =>
          let res := updRows rest cats
          ((k, v) :: res.1, res.2)

/-- Table-level `ContainerFile.add_categories`: update existing keys in
place, then append the genuinely new key/value pairs. -/
def addCatsT (t : List (String × String)) (cats : List (String × String)) :
    List (String × String) :=
  (updRows t cats).1 ++ (updRows t cats).2

/-- `ContainerFile.add_categories` on the file state (missing table created
empty first). -/
def sAddCats (cats : List (String × String)) (s : ContainerState) :
    Except PyErr Unit × ContainerState :=
  (.ok (), { s with categories := some (addCatsT (s.categories.getD []) cats) })

/-- Table-level `ContainerFile.del_categories`, same shape as `del_tags` but
matching on the key column. -/
def delCatsT (t : List (String × String)) (ks : List String) (all : Bool) :
    List (String × String) :=
  if all then []
  else
    let ks' := ks.dedup
    let rowlist := idxsOf (fun r => decide (r.1 ∈ ks')) t
    if rowlist.length = t.length then [] else eraseLoop t rowlist 0

/-- `ContainerFile.del_categories` on the file state. -/
def sDelCats (ks : List String) (all : Bool) (s : ContainerState) :
    Except PyErr Unit × ContainerState :=
  match s.categories with
  | none => (.error .noSuchNode, s)
  | some t => (.ok (), { s with categories := some (delCatsT t ks all) })

/-- `ContainerFile.create`: the exact call sequence of the source, aborting
at the first raised exception (Python propagates it out of `create`).
`fresh` is the `str(uuid4())` value, `locdir` the
`os.path.dirname(self.filename)` value. -/
def createModel (fresh : String) (containertype : String) (name : Option String)
    (locdir : String) (coordinator : Option String) (tags : List String)
    (categories : List (String × String)) (s : ContainerState) :
    Except PyErr Unit × ContainerState :=
  match updUuid fresh s with
  | (.error e, s') => (.error e, s')
  | (.ok _, s1) =>
    match updName (name.getD containertype) s1 with
    | (.error e, s') => (.error e, s')
    | (.ok _, s2) =>
      match updContainertype containertype s2 with
      | (.error e, s') => (.error e, s')
      | (.ok _, s3) =>
        match updLocation locdir s3 with
        | (.error e, s') => (.error e, s')
        | (.ok _, s4) =>
          match updVersionCall s4 with
          | (.error e, s') => (.error e, s')
          | (.ok _, s5) =>
            match updCoordinator coordinator s5 with
            | (.error e, s') => (.error e, s')
            | (.ok _, s6) =>
              match sAddTags tags s6 with
              | (.error e, s') => (.error e, s')
              | (.ok _, s7) => sAddCats categories s7

/-! ### The `File` locking decorators -/

/-- Advisory lock state of the metadata file handle. -/
inductive LockSt where
  | unlocked
  | shared
  | exclusive
deriving DecidableEq, Repr

/-- The open/lock state of the PyTables handle after a wrapped call. -/
structure Handle where
  isOpen : Bool
  lock : LockSt
deriving DecidableEq, Repr

/-- `File._write_state`: open in append mode, take the exclusive lock, run
the wrapped method, then `self.handle.close()`.  The close is only reached on
the normal-return path; a raised exception propagates past it. -/
def writeWrapped (op : ContainerState → Except PyErr Unit × ContainerState)
    (s : ContainerState) : Except PyErr Unit × ContainerState × Handle :=
  match op s with
  | (.ok u, s') => (.ok u, s', ⟨false, .unlocked⟩)
  | (.error e, s') => (.error e, s', ⟨true, .exclusive⟩)

/-- `File._read_state` (the branch taken when no handle is open yet): open
read-only, take the shared lock, run the wrapped method, close.  As with the
write wrapper, the close is only reached on the normal-return path. -/
def readWrapped (op : ContainerState → Except PyErr α) (s : ContainerState) :
    Except PyErr α × Handle :=
  match op s with
  | .ok a => (.ok a, ⟨false, .unlocked⟩)
  | .error e => (.error e, ⟨true, .shared⟩)

/-! ### Bundle membership set (`src/src/datreant/core/collections.py`) -/

/-- The facets of a treant object that `Bundle` consumes. -/
structure Treant where
  uuid : String
  treanttype : String
  abspath : String
  name : String
deriving DecidableEq, Repr

/-- One entry of `Bundle._state`: the `(uuid, treanttype, abspath)` member
record. -/
structure MemberRec where
  uuid : String
  treanttype : String
  abspath : String
deriving DecidableEq, Repr

/-- `Bundle._add_member`: build a record with the path normalized to absolute
(`os.path.abspath`, passed in as `normalize`); replace the record at the
first index holding the same uuid, else append. -/
def addMember (normalize : String → String) (state : List MemberRec)
    (uuid ttype path : String) : List MemberRec :=
  let rec_ : MemberRec := ⟨uuid, ttype, normalize path⟩
  let uuids := state.map (·.uuid)
  if uuid ∈ uuids then state.set (uuids.indexOf uuid) rec_
  else state ++ [rec_]

/-- `Bundle._del_members`: with `all=True`, drop everything; otherwise
collect the indices of records whose uuid is in the (deduplicated) target
list and pop them with the shifting loop. -/
def delMembers (state : List MemberRec) (uuids : List String) (all : Bool) :
    List MemberRec :=
  if all then []
  else
    let uuids' := uuids.dedup
    eraseLoop state (idxsOf (fun m => decide (m.uuid ∈ uuids')) state) 0

/-- In-memory state of a `Bundle`: the member records plus the uuid-keyed
object cache (`self._cache`). -/
structure BundleState where
  members : List MemberRec
  cache : List (String × Treant)
deriving DecidableEq, Repr

/-- Python dict update `self._cache[uuid] = treant`: overwrite the existing
entry for the key or append a new one. -/
def cacheUpsert (cache : List (String × Treant)) (uuid : String) (t : Treant) :
    List (String × Treant) :=
  if cache.any (fun c => decide (c.1 = uuid)) then
    cache.map fun c => if c.1 = uuid then (uuid, t) else c
  else cache ++ [(uuid, t)]

/-- One argument to `Bundle.add`, discriminated the way the source's
`isinstance`/`os.path.exists` chain discriminates it.  Filesystem-dependent
branches carry the treants their resolution (`filesystem.path2treant`,
`glob.glob`) would produce. -/
inductive AddInput where
  | noneInput
  | nested (items : List AddInput)
  | bundleInput (items : List AddInput)
  | treantInput (t : Treant)
  | pathInput (resolved : List Treant)
  | globInput (resolved : List Treant)
  | badInput
deriving Repr

mutual

/-- The scanning loop of `Bundle.add`: build the `outconts` list, caching
treant objects as they are seen; a nested list or Bundle is handed to a full
recursive `add` (which commits its own members) before the scan continues;
anything unrecognized raises `TypeError`. -/
def bundleAddList : List AddInput → BundleState → List Treant →
    Except PyErr (BundleState × List Treant)
  | [], s, out => .ok (s, out)
  | .noneInput :: rest, s, out => bundleAddList rest s out
  | .nested items :: rest, s, out =>
      match bundleAddFull items s with
      | .ok s' => bundleAddList rest s' out
      | .error e => .error e
  | .bundleInput items :: rest, s, out =>
      match bundleAddFull items s with
      | .ok s' => bundleAddList rest s' out
      | .error e => .error e
  | .treantInput t :: rest, s, out =>
      bundleAddList rest { s with cache := cacheUpsert s.cache t.uuid t }
        (out ++ [t])
  | .pathInput ts :: rest, s, out => bundleAddList rest s (out ++ ts)
  | .globInput ts :: rest, s, out => bundleAddList rest s (out ++ ts)
  | .badInput :: _, _, _ => .error .typeError

/-- `Bundle.add`: scan the arguments, then fold `_add_member` over the
collected treants.  `os.path.abspath` inside `_add_member` is modelled by
the identity on the already-absolute `treant.abspath`. -/
def bundleAddFull (items : List AddInput) (s : BundleState) :
    Except PyErr BundleState :=
  match bundleAddList items s [] with
  | .ok (s', out) =>
      .ok { s' with
            members := out.foldl
              (fun m t => addMember id m t.uuid t.treanttype t.abspath)
              s'.members }
  | .error e => .error e

end

/-- `Bundle._list`: uuids absent from the cache form the `findlist` handed to
the Foxhound resolver (`resolve`); after resolution, any uuid the resolver
could not locate makes the method raise `IOError`; otherwise the member list
is returned with cached objects in place and found objects filled in. -/
def listModel (uuids : List String) (cache resolve : String → Option Treant) :
    Except PyErr (List Treant) :=
  let findlist := uuids.filter fun u => (cache u).isNone
  if findlist.all (fun u => (resolve u).isSome) then
    .ok (uuids.map fun u =>
      match cache u with
      | some t => t
      | none => (resolve u).getD ⟨"", "", "", ""⟩)
  else .error .ioError

/-- `Bundle.names`: `self._list()` mapped to member names, with `None` kept
for members the list reports as missing (after `_list` returns, no member is
missing, so the guard only matters if `_list` itself returned). -/
def namesModel (uuids : List String) (cache resolve : String → Option Treant) :
    Except PyErr (List (Option String)) :=
  match listModel uuids cache resolve with
  | .ok l => .ok (l.map fun t => some t.name)
  | .error e => .error e

/-! ### `Bundle.discover` and the directory walk -/

/-- A directory tree: the treants whose statefile sits directly in this
directory, and the subdirectories. -/
inductive FSTree where
  | node (units : List String) (children : List FSTree)
deriving Repr

/-- Subdirectory list of a directory. -/
def FSTree.childrenOf : FSTree → List FSTree
  | .node _ cs => cs

/-- `filesystem.glob_treant(path)`: the treants whose statefile is directly
inside the directory `path`. -/
def globUnits : FSTree → List String
  | .node us _ => us

mutual

/-- `scandir.walk` visit order: the directory itself, then its subtrees. -/
def walkF : FSTree → List FSTree
  | .node us cs => .node us cs :: walkL cs

/-- `scandir.walk` over a list of sibling subtrees. -/
def walkL : List FSTree → List FSTree
  | [] => []
  | c :: cs => walkF c ++ walkL cs

end

mutual

/-- Every unit anywhere in the tree, the root directory included. -/
def allUnitsF : FSTree → List String
  | .node us cs => us ++ allUnitsL cs

/-- Every unit anywhere in a list of sibling subtrees. -/
def allUnitsL : List FSTree → List String
  | [] => []
  | c :: cs => allUnitsF c ++ allUnitsL cs

end

/-- `Bundle.discover`: for every directory yielded by the walk, glob each of
its *subdirectories* for treant statefiles (`os.path.join(root, d)` ranges
over `dirs` only, never `root` itself). -/
def discoverModel (t : FSTree) : List String :=
  (walkF t).flatMap fun n => n.childrenOf.flatMap globUnits

/-! ### Operation sequences over one store, for the algebraic claims -/

/-- One tag-table mutation: `add_tags(*ts)`, `del_tags(*ts)` or
`del_tags(all=True)`. -/
inductive TagOp where
  | addT (ts : List String)
  | delT (ts : List String)
  | delAll
deriving Repr

/-- The effect of a tag operation on the tags table. -/
def applyTagOpT (t : List String) : TagOp → List String
  | .addT ts => addTagsT t ts
  | .delT ts => delTagsT t ts false
  | .delAll => delTagsT t [] true

/-- The effect of a tag operation on the whole file state. -/
def applyTagOpS (s : ContainerState) : TagOp → ContainerState
  | .addT ts => (sAddTags ts s).2
  | .delT ts => (sDelTags ts false s).2
  | .delAll => (sDelTags [] true s).2

/-- The in-memory reference semantics of a tag operation: plain set union,
difference, and emptying. -/
def refTagSet (acc : Finset String) : TagOp → Finset String
  | .addT ts => acc ∪ ts.toFinset
  | .delT ts => acc \ ts.toFinset
  | .delAll => ∅

/-- The tags table after a sequence of operations. -/
def tagTableFold (init : List String) (ops : List TagOp) : List String :=
  ops.foldl applyTagOpT init

/-- Any public metadata mutation other than `update_uuid`. -/
inductive StoreOp where
  | updNameOp (n : String)
  | updContainertypeOp (ct : String)
  | updLocationOp (d : String)
  | updCoordinatorOp (c : Option String)
  | addTagsOp (ts : List String)
  | delTagsOp (ts : List String) (all : Bool)
  | addCatsOp (cs : List (String × String))
  | delCatsOp (ks : List String) (all : Bool)
deriving Repr

/-- Apply a public metadata operation to the file state (the raised-or-not
outcome is dropped; the state records any mutation performed). -/
def applyStoreOp (s : ContainerState) : StoreOp → ContainerState
  | .updNameOp n => (updName n s).2
  | .updContainertypeOp ct => (updContainertype ct s).2
  | .updLocationOp d => (updLocation d s).2
  | .updCoordinatorOp c => (updCoordinator c s).2
  | .addTagsOp ts => (sAddTags ts s).2
  | .delTagsOp ts all => (sDelTags ts all s).2
  | .addCatsOp cs => (sAddCats cs s).2
  | .delCatsOp ks all => (sDelCats ks all s).2

/-- Key column of a categories table. -/
def keysOf (t : List (String × String)) : List String := t.map Prod.fst

/-! ## Lemmas about the shared row-deletion machinery -/

theorem idxsOf_pairwise (p : α → Bool) (l : List α) :
    (idxsOf p l).Pairwise (· < ·) := by
  induction l with
  | nil => simp [idxsOf]
  | cons x xs ih =>
    have hmap : ((idxsOf p xs).map (· + 1)).Pairwise (· < ·) :=
      List.pairwise_map.mpr (ih.imp fun h => by omega)
    by_cases h : p x
    · simp only [idxsOf, h, if_pos, List.singleton_append, List.pairwise_cons]
      refine ⟨fun i hi => ?_, hmap⟩
      obtain ⟨i0, _, rfl⟩ := List.mem_map.mp hi
      omega
    · simpa [idxsOf, h] using hmap

theorem length_idxsOf (p : α → Bool) (l : List α) :
    (idxsOf p l).length = l.countP p := by
  induction l with
  | nil => rfl
  | cons x xs ih =>
    by_cases h : p x <;> simp [idxsOf, h, List.countP_cons, ih]

theorem eraseLoop_cons (x : α) (l : List α) (idxs : List Nat) (j : Nat)
    (hall : ∀ i ∈ idxs, j < i) (hp : idxs.Pairwise (· < ·)) :
    eraseLoop (x :: l) idxs j = x :: eraseLoop l idxs (j + 1) := by
  induction idxs generalizing x l j with
  | nil => rfl
  | cons i rest ih =>
    have hji : j < i := hall i (by simp)
    have h1 : i - j = (i - (j + 1)) + 1 := by omega
    have hrest : ∀ i' ∈ rest, j + 1 < i' := by
      intro i' hi'
      have : i < i' := (List.pairwise_cons.mp hp).1 i' hi'
      omega
    simp only [eraseLoop, h1, List.eraseIdx_cons_succ]
    exact ih x (l.eraseIdx (i - (j + 1))) (j + 1) hrest (List.pairwise_cons.mp hp).2

theorem eraseLoop_idxsOf (p : α → Bool) (l : List α) (j : Nat) :
    eraseLoop l ((idxsOf p l).map (· + j)) j = l.filter (fun x => !p x) := by
  induction l generalizing j with
  | nil => rfl
  | cons x xs ih =>
    have hcomp : ((idxsOf p xs).map (· + 1)).map (· + j) =
        (idxsOf p xs).map (· + (j + 1)) := by
      rw [List.map_map]
      exact List.map_congr_left fun a _ => by simp [Function.comp]; omega
    by_cases h : p x
    · simp only [idxsOf, h, if_pos, List.singleton_append, List.map_cons, hcomp]
      simp only [eraseLoop, Nat.zero_add, Nat.sub_self, List.eraseIdx_cons_zero]
      rw [ih (j + 1)]
      simp [List.filter_cons, h]
    · simp only [idxsOf, h, Bool.false_eq_true, if_false, List.nil_append, hcomp]
      have hall : ∀ i ∈ (idxsOf p xs).map (· + (j + 1)), j < i := by
        intro i hi
        obtain ⟨i0, _, rfl⟩ := List.mem_map.mp hi
        omega
      have hpw : ((idxsOf p xs).map (· + (j + 1))).Pairwise (· < ·) :=
        List.pairwise_map.mpr ((idxsOf_pairwise p xs).imp fun hlt => by omega)
      rw [eraseLoop_cons x xs _ j hall hpw, ih (j + 1)]
      simp [List.filter_cons, h]

theorem eraseLoop_idxsOf_zero (p : α → Bool) (l : List α) :
    eraseLoop l (idxsOf p l) 0 = l.filter (fun x => !p x) := by
  have h0 : (idxsOf p l).map (· + 0) = idxsOf p l := by
    simp
  rw [← h0]
  exact eraseLoop_idxsOf p l 0

theorem filter_not_eq_nil_of_countP (p : α → Bool) (l : List α)
    (h : l.countP p = l.length) : l.filter (fun x => !p x) = [] := by
  have hall : ∀ a ∈ l, p a := List.countP_eq_length.mp h
  exact List.filter_eq_nil_iff.mpr fun a ha => by simp [hall a ha]

/-! ## Tag-table semantics (`add_tags` / `del_tags` / `get_tags`) -/

theorem delTagsT_eq_filter (t ts : List String) :
    delTagsT t ts false = t.filter (fun x => decide (x ∉ ts)) := by
  have hcongr : ∀ (l : List String),
      l.filter (fun x => !decide (x ∈ ts.dedup)) =
        l.filter (fun x => decide (x ∉ ts)) :=
    fun l => List.filter_congr fun a _ => by simp [List.mem_dedup]
  unfold delTagsT
  simp only [if_false, Bool.false_eq_true]
  by_cases h : (idxsOf (fun x => decide (x ∈ ts.dedup)) t).length = t.length
  · rw [if_pos h]
    rw [length_idxsOf] at h
    rw [← hcongr t]
    exact (filter_not_eq_nil_of_countP _ t h).symm
  · rw [if_neg h, eraseLoop_idxsOf_zero, hcongr t]

theorem addTagsT_toFinset (t ts : List String) :
    (addTagsT t ts).toFinset = t.toFinset ∪ ts.toFinset := by
  ext a
  simp only [addTagsT, List.toFinset_append, Finset.mem_union, List.mem_toFinset,
    List.mem_filter, List.mem_dedup, decide_eq_true_eq]
  tauto

theorem addTagsT_nodup (t ts : List String) (h : t.Nodup) :
    (addTagsT t ts).Nodup := by
  rw [addTagsT, List.nodup_append]
  refine ⟨h, (List.nodup_dedup ts).filter _, ?_⟩
  intro a ha hb
  have := (List.mem_filter.mp hb).2
  simp only [decide_eq_true_eq] at this
  exact this ha

theorem delTagsT_toFinset (t ts : List String) :
    (delTagsT t ts false).toFinset = t.toFinset \ ts.toFinset := by
  rw [delTagsT_eq_filter]
  ext a
  simp [List.mem_filter]

theorem delTagsT_nodup (t ts : List String) (all : Bool) (h : t.Nodup) :
    (delTagsT t ts all).Nodup := by
  cases all
  · rw [delTagsT_eq_filter]; exact h.filter _
  · simp [delTagsT]

theorem applyTagOpS_tags (s : ContainerState) (t : List String) (op : TagOp)
    (hs : s.tags = some t) :
    (applyTagOpS s op).tags = some (applyTagOpT t op) := by
  cases op <;> simp [applyTagOpS, applyTagOpT, sAddTags, sDelTags, hs]

theorem applyTagOpT_toFinset (t : List String) (op : TagOp) :
    (applyTagOpT t op).toFinset = refTagSet t.toFinset op := by
  cases op with
  | addT ts => exact addTagsT_toFinset t ts
  | delT ts => exact delTagsT_toFinset t ts
  | delAll => simp [applyTagOpT, refTagSet, delTagsT]

theorem applyTagOpT_nodup (t : List String) (op : TagOp) (h : t.Nodup) :
    (applyTagOpT t op).Nodup := by
  cases op with
  | addT ts => exact addTagsT_nodup t ts h
  | delT ts => exact delTagsT_nodup t ts false h
  | delAll => exact delTagsT_nodup t [] true h

/-- C2: for every sequence of `add_tags`/`del_tags` calls on a store whose
tags table exists, the tag set returned by `get_tags` equals the result of
applying the same insertions and removals to an in-memory reference set;
along the way the table never holds a duplicate (idempotent add), deleting an
absent tag is a no-op at the set level, and `del_tags(all=True)` empties the
set (`refTagSet _ .delAll = ∅`). -/
theorem tags_sequence_matches_reference (ops : List TagOp) (init : List String)
    (s : ContainerState) (hs : s.tags = some init) (hn : init.Nodup) :
    getTags (ops.foldl applyTagOpS s) = .ok (tagTableFold init ops)
      ∧ (tagTableFold init ops).toFinset = ops.foldl refTagSet init.toFinset
      ∧ (tagTableFold init ops).Nodup := by
  induction ops generalizing init s with
  | nil =>
    refine ⟨?_, rfl, hn⟩
    simp [getTags, tagTableFold, hs]
  | cons op ops ih =>
    have hs' : (applyTagOpS s op).tags = some (applyTagOpT init op) :=
      applyTagOpS_tags s init op hs
    have hn' : (applyTagOpT init op).Nodup := applyTagOpT_nodup init op hn
    obtain ⟨h1, h2, h3⟩ := ih (applyTagOpT init op) (applyTagOpS s op) hs' hn'
    refine ⟨?_, ?_, ?_⟩
    · simpa [tagTableFold] using h1
    · have : refTagSet init.toFinset op = (applyTagOpT init op).toFinset :=
        (applyTagOpT_toFinset init op).symm
      simpa [tagTableFold, this] using h2
    · simpa [tagTableFold] using h3

/-- Witness for C2 at a concrete operation sequence. -/
theorem tags_sequence_matches_reference_witness :
    getTags ([TagOp.addT ["a", "b", "a"], TagOp.delT ["c", "a"]].foldl
        applyTagOpS ⟨none, none, some [], none⟩)
      = .ok (tagTableFold [] [TagOp.addT ["a", "b", "a"], TagOp.delT ["c", "a"]])
    ∧ (tagTableFold [] [TagOp.addT ["a", "b", "a"], TagOp.delT ["c", "a"]]).toFinset
      = [TagOp.addT ["a", "b", "a"], TagOp.delT ["c", "a"]].foldl refTagSet
          ([] : List String).toFinset
    ∧ (tagTableFold [] [TagOp.addT ["a", "b", "a"], TagOp.delT ["c", "a"]]).Nodup :=
  tags_sequence_matches_reference [TagOp.addT ["a", "b", "a"], TagOp.delT ["c", "a"]]
    [] ⟨none, none, some [], none⟩ rfl (by decide)

/-! ## Category-table semantics (`add_categories` / `get_categories`) -/

theorem updRows_nil_cats (t : List (String × String)) : updRows t [] = (t, []) := by
  induction t with
  | nil => rfl
  | cons x rest ih =>
    obtain ⟨k, v⟩ := x
    simp [updRows, List.find?, ih]

theorem addCatsT_cons_ne (k' v' k v : String) (t : List (String × String))
    (h : k' ≠ k) :
    addCatsT ((k', v') :: t) [(k, v)] = (k', v') :: addCatsT t [(k, v)] := by
  have hfind : List.find? (fun c => decide (c.1 = k')) [(k, v)] = none := by
    simp [List.find?, decide_eq_false (fun e : k = k' => h e.symm)]
  simp [addCatsT, updRows, hfind]

theorem addCatsT_cons_eq (v' k v : String) (t : List (String × String)) :
    addCatsT ((k, v') :: t) [(k, v)] = (k, v) :: t := by
  simp [addCatsT, updRows, List.find?, List.eraseP, updRows_nil_cats]

theorem addCatsT_single (t : List (String × String)) (k v : String)
    (h : (keysOf t).Nodup) :
    addCatsT t [(k, v)] =
      if k ∈ keysOf t then t.map (fun r => if r.1 = k then (k, v) else r)
      else t ++ [(k, v)] := by
  induction t with
  | nil => simp [addCatsT, updRows, keysOf]
  | cons x rest ih =>
    obtain ⟨k', v'⟩ := x
    have hkeys : keysOf ((k', v') :: rest) = k' :: keysOf rest := rfl
    have hn' : (keysOf rest).Nodup := by
      rw [hkeys] at h; exact (List.nodup_cons.mp h).2
    have hk'notin : k' ∉ keysOf rest := by
      rw [hkeys] at h; exact (List.nodup_cons.mp h).1
    by_cases hk : k' = k
    · subst hk
      rw [addCatsT_cons_eq]
      have hmem : k' ∈ keysOf ((k', v') :: rest) := by simp [keysOf]
      rw [if_pos hmem]
      simp only [List.map_cons, if_pos rfl]
      congr 1
      symm
      exact (List.map_congr_left fun r hr => by
        have : r.1 ≠ k' := fun heq => hk'notin (heq ▸ List.mem_map_of_mem Prod.fst hr)
        simp [this]).trans (List.map_id rest)
    · rw [addCatsT_cons_ne k' v' k v rest hk, ih hn']
      have hmem : k ∈ keysOf ((k', v') :: rest) ↔ k ∈ keysOf rest := by
        rw [hkeys, List.mem_cons]
        exact or_iff_right fun hkk => hk hkk.symm
      by_cases hin : k ∈ keysOf rest
      · rw [if_pos hin, if_pos (hmem.mpr hin)]
        simp [hk]
      · rw [if_neg hin, if_neg (fun hc => hin (hmem.mp hc))]
        rfl

theorem keysOf_map_upd (t : List (String × String)) (k v : String) :
    keysOf (t.map (fun r => if r.1 = k then (k, v) else r)) = keysOf t := by
  unfold keysOf
  rw [List.map_map]
  exact List.map_congr_left fun r _ => by by_cases h : r.1 = k <;> simp [Function.comp, h]

theorem map_upd_noop (t : List (String × String)) (k v : String)
    (h : k ∉ keysOf t) :
    t.map (fun r => if r.1 = k then (k, v) else r) = t := by
  refine (List.map_congr_left fun r hr => ?_).trans (List.map_id t)
  have : r.1 ≠ k := fun heq => h (heq ▸ List.mem_map_of_mem Prod.fst hr)
  simp [this]

theorem filter_key_nil (t : List (String × String)) (k : String)
    (h : k ∉ keysOf t) :
    t.filter (fun r => decide (r.1 = k)) = [] := by
  refine List.filter_eq_nil_iff.mpr fun r hr => ?_
  have : r.1 ≠ k := fun heq => h (heq ▸ List.mem_map_of_mem Prod.fst hr)
  simp [this]

theorem length_filter_key_one (t : List (String × String)) (k : String)
    (hn : (keysOf t).Nodup) (hm : k ∈ keysOf t) :
    (t.filter (fun r => decide (r.1 = k))).length = 1 := by
  induction t with
  | nil => simp [keysOf] at hm
  | cons x rest ih =>
    obtain ⟨k', v'⟩ := x
    have hn' : (keysOf rest).Nodup := (List.nodup_cons.mp hn).2
    have hk'notin : k' ∉ keysOf rest := (List.nodup_cons.mp hn).1
    by_cases hk : k' = k
    · subst hk
      rw [List.filter_cons_of_pos (by simp)]
      rw [filter_key_nil rest k' hk'notin]
      rfl
    · have hm' : k ∈ keysOf rest := by
        rcases List.mem_cons.mp hm with h1 | h1
        · exact absurd h1.symm hk
        · exact h1
      rw [List.filter_cons_of_neg (by simp [hk])]
      exact ih hn' hm'

theorem filter_key_map_upd (t : List (String × String)) (k v : String) :
    (t.map (fun r => if r.1 = k then (k, v) else r)).filter
        (fun r => decide (r.1 = k)) =
      (t.filter (fun r => decide (r.1 = k))).map
        (fun r => if r.1 = k then (k, v) else r) := by
  rw [List.filter_map]
  congr 1
  exact List.filter_congr fun r _ => by by_cases h : r.1 = k <;> simp [Function.comp, h]

theorem filter_other_key_map_upd (t : List (String × String)) (k v k' : String)
    (h : k' ≠ k) :
    (t.map (fun r => if r.1 = k then (k, v) else r)).filter
        (fun r => decide (r.1 = k')) =
      t.filter (fun r => decide (r.1 = k')) := by
  rw [List.filter_map]
  have h1 : t.filter ((fun r : String × String => decide (r.1 = k')) ∘
      (fun r => if r.1 = k then (k, v) else r)) =
      t.filter (fun r => decide (r.1 = k')) :=
    List.filter_congr fun r _ => by
      by_cases hr : r.1 = k
      · simp [Function.comp, hr, fun hkk : k = k' => h hkk.symm]
      · simp [Function.comp, hr]
  rw [h1]
  refine (List.map_congr_left fun r hr => ?_).trans (List.map_id _)
  have : r.1 = k' := by simpa using (List.mem_filter.mp hr).2
  simp [this, fun hkk : k' = k => h hkk]

theorem map_upd_upd (t : List (String × String)) (k v1 v2 : String) :
    (t.map (fun r => if r.1 = k then (k, v1) else r)).map
        (fun r => if r.1 = k then (k, v2) else r) =
      t.map (fun r => if r.1 = k then (k, v2) else r) := by
  rw [List.map_map]
  exact List.map_congr_left fun r _ => by by_cases h : r.1 = k <;> simp [Function.comp, h]

/-- C3: category insertion is last-write-wins per key: after
`add_categories(k=v1)` then `add_categories(k=v2)` on a table with unique
keys, exactly one row carries key `k`, `get_categories` reads `v2` for it,
rows for every other key are untouched, and a key not previously present was
appended by the first call. -/
theorem categories_last_write_wins (t : List (String × String)) (k v1 v2 : String)
    (h : (keysOf t).Nodup) :
    ((addCatsT (addCatsT t [(k, v1)]) [(k, v2)]).filter
        (fun r => decide (r.1 = k))).length = 1
    ∧ catVal (addCatsT (addCatsT t [(k, v1)]) [(k, v2)]) k = some v2
    ∧ (∀ k', k' ≠ k →
        (addCatsT (addCatsT t [(k, v1)]) [(k, v2)]).filter
            (fun r => decide (r.1 = k')) =
          t.filter (fun r => decide (r.1 = k')))
    ∧ (k ∉ keysOf t → addCatsT t [(k, v1)] = t ++ [(k, v1)]) := by
  by_cases hin : k ∈ keysOf t
  · -- the key was present: both calls update the row in place
    have ht1 : addCatsT t [(k, v1)] =
        t.map (fun r => if r.1 = k then (k, v1) else r) := by
      rw [addCatsT_single t k v1 h, if_pos hin]
    have hkeys1 : keysOf (addCatsT t [(k, v1)]) = keysOf t := by
      rw [ht1]; exact keysOf_map_upd t k v1
    have ht2 : addCatsT (addCatsT t [(k, v1)]) [(k, v2)] =
        t.map (fun r => if r.1 = k then (k, v2) else r) := by
      rw [addCatsT_single _ k v2 (hkeys1 ▸ h), if_pos (hkeys1 ▸ hin), ht1]
      exact map_upd_upd t k v1 v2
    have hfilt : (addCatsT (addCatsT t [(k, v1)]) [(k, v2)]).filter
        (fun r => decide (r.1 = k)) =
        (t.filter (fun r => decide (r.1 = k))).map
          (fun r => if r.1 = k then (k, v2) else r) := by
      rw [ht2]; exact filter_key_map_upd t k v2
    have hlen1 : (t.filter (fun r => decide (r.1 = k))).length = 1 :=
      length_filter_key_one t k h hin
    obtain ⟨a, ha⟩ := List.length_eq_one.mp hlen1
    have hak : a.1 = k := by
      have : a ∈ t.filter (fun r => decide (r.1 = k)) := ha ▸ List.mem_singleton_self a
      simpa using (List.mem_filter.mp this).2
    refine ⟨?_, ?_, ?_, fun hnot => absurd hin hnot⟩
    · rw [hfilt, ha]; rfl
    · rw [catVal, hfilt, ha]
      simp [hak]
    · intro k' hk'
      rw [ht2]
      exact filter_other_key_map_upd t k v2 k' hk'
  · -- the key was absent: the first call appends it, the second updates it
    have ht1 : addCatsT t [(k, v1)] = t ++ [(k, v1)] := by
      rw [addCatsT_single t k v1 h, if_neg hin]
    have hkeys1 : keysOf (addCatsT t [(k, v1)]) = keysOf t ++ [k] := by
      rw [ht1]; simp [keysOf]
    have hn1 : (keysOf (addCatsT t [(k, v1)])).Nodup := by
      rw [hkeys1, List.nodup_append]
      exact ⟨h, List.nodup_singleton k, fun a ha hb => hin ((List.mem_singleton.mp hb) ▸ ha)⟩
    have hin1 : k ∈ keysOf (addCatsT t [(k, v1)]) := by
      rw [hkeys1]; simp
    have ht2 : addCatsT (addCatsT t [(k, v1)]) [(k, v2)] = t ++ [(k, v2)] := by
      rw [addCatsT_single _ k v2 hn1, if_pos hin1, ht1, List.map_append,
        map_upd_noop t k v2 hin]
      simp
    refine ⟨?_, ?_, ?_, fun _ => ht1⟩
    · rw [ht2, List.filter_append, filter_key_nil t k hin]
      simp
    · rw [catVal, ht2, List.filter_append, filter_key_nil t k hin]
      simp
    · intro k' hk'
      rw [ht2, List.filter_append]
      have : ([(k, v2)] : List (String × String)).filter
          (fun r => decide (r.1 = k')) = [] := by
        simp [decide_eq_false (fun e : k = k' => hk' e.symm)]
      rw [this, List.append_nil]

/-- Witness for C3 at a concrete table and key. -/
theorem categories_last_write_wins_witness :
    ((addCatsT (addCatsT [("x", "1")] [("k", "a")]) [("k", "b")]).filter
        (fun r => decide (r.1 = "k"))).length = 1
    ∧ catVal (addCatsT (addCatsT [("x", "1")] [("k", "a")]) [("k", "b")]) "k"
        = some "b"
    ∧ (∀ k', k' ≠ "k" →
        (addCatsT (addCatsT [("x", "1")] [("k", "a")]) [("k", "b")]).filter
            (fun r => decide (r.1 = k')) =
          [("x", "1")].filter (fun r => decide (r.1 = k')))
    ∧ ("k" ∉ keysOf [("x", "1")] →
        addCatsT [("x", "1")] [("k", "a")] = [("x", "1")] ++ [("k", "a")]) :=
  categories_last_write_wins [("x", "1")] "k" "a" "b" (by decide)

/-! ## Identity-record claims -/

/-- C1 (evaluation at the failing input): on a file that does not yet exist,
`create` never completes.  The class body's second `update_name` definition
(the mis-named version updater) shadows the rename method, and its body
reads the undefined name `version`, so the `self.update_name(...)` call in
`create` raises `NameError` right after the uuid row is written; the fresh
identity record is never completed and no round-trip is possible. -/
theorem create_raises_nameError (fresh containertype : String)
    (name : Option String) (locdir : String) (coordinator : Option String)
    (tags : List String) (categories : List (String × String)) :
    (createModel fresh containertype name locdir coordinator tags categories
        emptyContainer).1 = .error .nameError := rfl

/-- C4 (evaluation at the failing input): a write operation whose body raises
(here the effective `update_name`, which always raises `NameError`) leaves
the file handle open with the exclusive lock still held, because
`_write_state` only reaches `self.handle.close()` on the normal-return
path — there is no try/finally. -/
theorem write_state_leaves_file_open_on_exception :
    (writeWrapped (updName "newname")
        ⟨some [blankMeta], none, none, none⟩).2.2 = ⟨true, LockSt.exclusive⟩
    ∧ (writeWrapped (updName "newname")
        ⟨some [blankMeta], none, none, none⟩).1 = .error .nameError :=
  ⟨rfl, rfl⟩

/-- C5 (counterexample): `update_uuid` is itself a public store operation,
and calling it on an existing identity record replaces the stored uuid with
a fresh one, so `get_uuid` is not stable under every public operation. -/
theorem update_uuid_changes_uuid :
    getUuid ((updUuid "b" ⟨some [{ blankMeta with uuid := "a" }],
        none, none, none⟩).2)
      ≠ getUuid ⟨some [{ blankMeta with uuid := "a" }], none, none, none⟩ := by
  intro h
  simp [getUuid, updUuid] at h

/-- C5 (amended): the stored uuid is changed only by `update_uuid`; every
other public metadata operation — rename (the effective `update_name`),
type update, location update, coordinator update, tag and category
mutations — leaves the value returned by `get_uuid` unchanged. -/
theorem uuid_stable_under_store_ops (op : StoreOp) (s : ContainerState)
    (rows : List MetaRow) (hs : s.meta = some rows) :
    getUuid (applyStoreOp s op) = getUuid s := by
  cases op with
  | updNameOp n => simp [applyStoreOp, updName, hs]
  | updContainertypeOp ct =>
      by_cases hct : ct = "Sim" ∨ ct = "Group" <;>
        cases rows <;>
          simp [applyStoreOp, updContainertype, hs, hct, getUuid]
  | updLocationOp d =>
      cases rows <;> simp [applyStoreOp, updLocation, hs, getUuid]
  | updCoordinatorOp c => simp [applyStoreOp, updCoordinator, getUuid]
  | addTagsOp ts => simp [applyStoreOp, sAddTags, getUuid]
  | delTagsOp ts all =>
      cases htag : s.tags <;> simp [applyStoreOp, sDelTags, htag, getUuid]
  | addCatsOp cs => simp [applyStoreOp, sAddCats, getUuid]
  | delCatsOp ks all =>
      cases hcat : s.categories <;> simp [applyStoreOp, sDelCats, hcat, getUuid]

/-- Witness for the amended C5 at a concrete state and operation. -/
theorem uuid_stable_under_store_ops_witness :
    getUuid (applyStoreOp ⟨some [{ blankMeta with uuid := "a" }],
        none, some ["t1"], none⟩ (.addTagsOp ["t2"]))
      = getUuid ⟨some [{ blankMeta with uuid := "a" }], none, some ["t1"], none⟩ :=
  uuid_stable_under_store_ops (.addTagsOp ["t2"])
    ⟨some [{ blankMeta with uuid := "a" }], none, some ["t1"], none⟩
    [{ blankMeta with uuid := "a" }] rfl

/-- C8: `update_containertype` silently ignores any value outside
`{'Sim', 'Group'}` — the call returns without error and the whole state,
the stored type included, is untouched — while an accepted value is stored
and read back by `get_containertype`. -/
theorem containertype_closed_set (s : ContainerState) (ct : String)
    (m : MetaRow) (rest : List MetaRow) (hs : s.meta = some (m :: rest)) :
    (¬(ct = "Sim" ∨ ct = "Group") → updContainertype ct s = (.ok (), s))
    ∧ ((ct = "Sim" ∨ ct = "Group") →
        (updContainertype ct s).1 = .ok ()
        ∧ getContainertype (updContainertype ct s).2 = .ok ct) := by
  constructor
  · intro hct
    simp [updContainertype, hct]
  · intro hct
    constructor <;> simp [updContainertype, hct, hs, getContainertype]

/-- Witness for C8 at a concrete state and a rejected value. -/
theorem containertype_closed_set_witness :
    (¬("Bogus" = "Sim" ∨ "Bogus" = "Group") →
        updContainertype "Bogus" ⟨some [blankMeta], none, none, none⟩
          = (.ok (), ⟨some [blankMeta], none, none, none⟩))
    ∧ (("Bogus" = "Sim" ∨ "Bogus" = "Group") →
        (updContainertype "Bogus" ⟨some [blankMeta], none, none, none⟩).1 = .ok ()
        ∧ getContainertype
            (updContainertype "Bogus" ⟨some [blankMeta], none, none, none⟩).2
          = .ok "Bogus") :=
  containertype_closed_set ⟨some [blankMeta], none, none, none⟩ "Bogus"
    blankMeta [] rfl

/-! ## Bundle membership claims -/

theorem set_self_of_getElem (l : List α) (i : Nat) (a : α) (h : i < l.length)
    (ha : l[i] = a) : l.set i a = l := by
  subst ha
  ext1 j
  rw [List.getElem?_set]
  split
  · simp_all
  · rfl

theorem addMember_uuids_of_mem (normalize : String → String)
    (st : List MemberRec) (u tt p : String) (h : u ∈ st.map (·.uuid)) :
    (addMember normalize st u tt p).map (·.uuid) = st.map (·.uuid) := by
  have hlt : (st.map (·.uuid)).indexOf u < (st.map (·.uuid)).length :=
    List.indexOf_lt_length.mpr h
  simp only [addMember, if_pos h]
  rw [List.map_set]
  exact set_self_of_getElem _ _ _ hlt (List.getElem_indexOf hlt)

theorem addMember_mem_replaced (normalize : String → String)
    (st : List MemberRec) (u tt p : String) (hn : (st.map (·.uuid)).Nodup)
    (h : u ∈ st.map (·.uuid)) :
    ∀ r ∈ addMember normalize st u tt p, r.uuid = u →
      r = ⟨u, tt, normalize p⟩ := by
  intro r hr hru
  have hlt : (st.map (·.uuid)).indexOf u < (st.map (·.uuid)).length :=
    List.indexOf_lt_length.mpr h
  simp only [addMember, if_pos h] at hr
  obtain ⟨j, hj, rfl⟩ := List.mem_iff_getElem.mp hr
  rw [List.getElem_set] at hru ⊢
  split
  · rfl
  · exfalso
    rename_i hne
    rw [if_neg hne] at hru
    have hj' : j < st.length := by simpa [List.length_set] using hj
    have hj2 : j < (st.map (·.uuid)).length := by simpa using hj'
    have hju : (st.map (·.uuid)).get ⟨j, hj2⟩ = u := by
      simpa [List.getElem_map] using hru
    have hiu : (st.map (·.uuid)).get ⟨(st.map (·.uuid)).indexOf u, hlt⟩ = u :=
      List.indexOf_get hlt
    have hfin := (List.Nodup.get_inj_iff hn).mp (hju.trans hiu.symm)
    have hidx : j = (st.map (·.uuid)).indexOf u := by
      simpa [Fin.mk.injEq] using hfin
    exact hne hidx.symm

theorem addMember_of_not_mem (normalize : String → String)
    (st : List MemberRec) (u tt p : String) (h : u ∉ st.map (·.uuid)) :
    addMember normalize st u tt p = st ++ [⟨u, tt, normalize p⟩] := by
  simp only [addMember, if_neg h]

theorem addMember_nodup (normalize : String → String)
    (st : List MemberRec) (u tt p : String) (hn : (st.map (·.uuid)).Nodup) :
    ((addMember normalize st u tt p).map (·.uuid)).Nodup := by
  by_cases h : u ∈ st.map (·.uuid)
  · rw [addMember_uuids_of_mem normalize st u tt p h]
    exact hn
  · rw [addMember_of_not_mem normalize st u tt p h]
    simp only [List.map_append, List.map_cons, List.map_nil]
    rw [List.nodup_append]
    refine ⟨hn, List.nodup_singleton _, fun a ha hb => h ?_⟩
    have hau : a = u := by simpa using hb
    exact hau ▸ ha

theorem foldl_addMember_nodup (normalize : String → String)
    (ts : List Treant) (st : List MemberRec) (hn : (st.map (·.uuid)).Nodup) :
    ((ts.foldl (fun m t => addMember normalize m t.uuid t.treanttype t.abspath)
        st).map (·.uuid)).Nodup := by
  induction ts generalizing st with
  | nil => exact hn
  | cons t ts ih =>
    exact ih _ (addMember_nodup normalize st t.uuid t.treanttype t.abspath hn)

theorem delMembers_eq_filter (st : List MemberRec) (uuids : List String) :
    delMembers st uuids false =
      st.filter (fun m => !decide (m.uuid ∈ uuids.dedup)) := by
  simp only [delMembers, if_false, Bool.false_eq_true]
  exact eraseLoop_idxsOf_zero _ st

theorem delMembers_nodup (st : List MemberRec) (uuids : List String)
    (all : Bool) (hn : (st.map (·.uuid)).Nodup) :
    ((delMembers st uuids all).map (·.uuid)).Nodup := by
  cases all
  · rw [delMembers_eq_filter]
    exact hn.sublist ((List.filter_sublist st).map _)
  · simp [delMembers]

/-- C6: every membership-set operation preserves the uuid-uniqueness
invariant — a fresh set is trivially unique, `_add_member` (and therefore
`add`, which folds it over the resolved treants) keeps it, as do
`_del_members` and `clear` (`_del_members(all=True)`); adding a uuid that is
already present replaces its record in place (same uuid sequence, the record
carrying the normalized fresh path) and never duplicates, while a new uuid
is appended at the end. -/
theorem membership_uuid_invariant (normalize : String → String)
    (st : List MemberRec) (u tt p : String) (ts : List Treant)
    (dels : List String) (all : Bool) (h : (st.map (·.uuid)).Nodup) :
    ((addMember normalize st u tt p).map (·.uuid)).Nodup
    ∧ (u ∈ st.map (·.uuid) →
        (addMember normalize st u tt p).map (·.uuid) = st.map (·.uuid)
        ∧ ∀ r ∈ addMember normalize st u tt p, r.uuid = u →
            r = ⟨u, tt, normalize p⟩)
    ∧ (u ∉ st.map (·.uuid) →
        addMember normalize st u tt p = st ++ [⟨u, tt, normalize p⟩])
    ∧ ((ts.foldl (fun m t => addMember normalize m t.uuid t.treanttype t.abspath)
          st).map (·.uuid)).Nodup
    ∧ ((delMembers st dels all).map (·.uuid)).Nodup
    ∧ (([] : List MemberRec).map (·.uuid)).Nodup :=
  ⟨addMember_nodup normalize st u tt p h,
   fun hm => ⟨addMember_uuids_of_mem normalize st u tt p hm,
              addMember_mem_replaced normalize st u tt p h hm⟩,
   addMember_of_not_mem normalize st u tt p,
   foldl_addMember_nodup normalize ts st h,
   delMembers_nodup st dels all h,
   List.nodup_nil⟩

/-- Witness for C6 at a concrete member list. -/
theorem membership_uuid_invariant_witness :
    ((addMember id [⟨"a", "T", "/p"⟩] "a" "T" "/q").map (·.uuid)).Nodup
    ∧ ("a" ∈ ([⟨"a", "T", "/p"⟩] : List MemberRec).map (·.uuid) →
        (addMember id [⟨"a", "T", "/p"⟩] "a" "T" "/q").map (·.uuid)
          = ([⟨"a", "T", "/p"⟩] : List MemberRec).map (·.uuid)
        ∧ ∀ r ∈ addMember id [⟨"a", "T", "/p"⟩] "a" "T" "/q", r.uuid = "a" →
            r = ⟨"a", "T", id "/q"⟩)
    ∧ ("a" ∉ ([⟨"a", "T", "/p"⟩] : List MemberRec).map (·.uuid) →
        addMember id [⟨"a", "T", "/p"⟩] "a" "T" "/q"
          = [⟨"a", "T", "/p"⟩] ++ [⟨"a", "T", id "/q"⟩])
    ∧ ((([] : List Treant).foldl
          (fun m t => addMember id m t.uuid t.treanttype t.abspath)
          [⟨"a", "T", "/p"⟩]).map (·.uuid)).Nodup
    ∧ ((delMembers [⟨"a", "T", "/p"⟩] ["a"] false).map (·.uuid)).Nodup
    ∧ (([] : List MemberRec).map (·.uuid)).Nodup :=
  membership_uuid_invariant id [⟨"a", "T", "/p"⟩] "a" "T" "/q" [] ["a"] false
    (by decide)

/-- C7 (evaluation at the failing input): with a single member whose uuid is
neither cached nor locatable by the resolver, the whole-collection listing
`names` does not return `[None]` — `_list` raises `IOError`
("Could not find member ...") before `names` can build its list, despite the
docstrings of `_list` and `names` promising a `None` marker in place. -/
theorem names_raises_on_missing_member :
    namesModel ["u1"] (fun _ => none) (fun _ => none) = .error .ioError := rfl

/-! ## `discover` and the walk -/

theorem childrenOf_node (us : List String) (cs : List FSTree) :
    (FSTree.node us cs).childrenOf = cs := rfl

theorem mem_allUnitsL_iff (cs : List FSTree) (u : String) :
    u ∈ allUnitsL cs ↔
      u ∈ cs.flatMap globUnits ∨ ∃ c ∈ cs, u ∈ allUnitsL c.childrenOf := by
  induction cs with
  | nil => simp [allUnitsL]
  | cons c rest ih =>
    cases c with
    | node us' cs' =>
      simp only [allUnitsL, allUnitsF, List.flatMap_cons, globUnits,
        childrenOf_node, List.mem_append, ih, List.mem_cons]
      constructor
      · rintro ((h1 | h2) | h3)
        · exact Or.inl (Or.inl h1)
        · exact Or.inr ⟨_, Or.inl rfl, h2⟩
        · rcases h3 with h3 | ⟨c, hc, hcu⟩
          · exact Or.inl (Or.inr h3)
          · exact Or.inr ⟨c, Or.inr hc, hcu⟩
      · rintro ((h1 | h2) | ⟨c, (rfl | hc), hcu⟩)
        · exact Or.inl (Or.inl h1)
        · exact Or.inr (Or.inl h2)
        · exact Or.inl (Or.inr hcu)
        · exact Or.inr (Or.inr ⟨c, hc, hcu⟩)

theorem mem_walk_forest (cs : List FSTree) (u : String) :
    u ∈ (walkL cs).flatMap (fun n => n.childrenOf.flatMap globUnits) ↔
      ∃ c ∈ cs, u ∈ allUnitsL c.childrenOf := by
  suffices H : ∀ n (cs : List FSTree), sizeOf cs ≤ n →
      (u ∈ (walkL cs).flatMap (fun n => n.childrenOf.flatMap globUnits) ↔
        ∃ c ∈ cs, u ∈ allUnitsL c.childrenOf) from H (sizeOf cs) cs le_rfl
  intro n
  induction n with
  | zero =>
    intro cs hcs
    cases cs with
    | nil => simp [walkL]
    | cons c rest =>
      simp only [List.cons.sizeOf_spec] at hcs
      omega
  | succ n ih =>
    intro cs hcs
    cases cs with
    | nil => simp [walkL]
    | cons c rest =>
      cases c with
      | node us' cs' =>
        simp only [List.cons.sizeOf_spec, FSTree.node.sizeOf_spec] at hcs
        have hcs' : sizeOf cs' ≤ n := by omega
        have hrest : sizeOf rest ≤ n := by omega
        simp only [walkL, walkF, List.flatMap_append, List.flatMap_cons,
          childrenOf_node, List.mem_append]
        rw [ih cs' hcs', ih rest hrest]
        simp only [List.mem_cons, exists_eq_or_imp, childrenOf_node,
          mem_allUnitsL_iff cs' u]

/-- C9 (amended): `discover(root)` returns exactly the units found in the
proper subdirectories of `root` — every unit anywhere strictly below the
root is collected, and nothing else; in particular a unit whose statefile
sits directly in the root directory itself is not collected. -/
theorem discover_collects_subdir_units (t : FSTree) (u : String) :
    u ∈ discoverModel t ↔ u ∈ allUnitsL t.childrenOf := by
  cases t with
  | node us cs =>
    have h1 : discoverModel (FSTree.node us cs) =
        cs.flatMap globUnits ++
          (walkL cs).flatMap (fun n => n.childrenOf.flatMap globUnits) := by
      simp [discoverModel, walkF, childrenOf_node]
    rw [h1]
    simp only [List.mem_append, childrenOf_node]
    rw [mem_walk_forest cs u, mem_allUnitsL_iff cs u]

/-- C9 (counterexample): a tree whose only unit sits directly in the root
directory.  The unit is in the tree (`allUnitsF`) but `discover` returns
nothing, so `discover` does not return every unit in the tree. -/
theorem discover_misses_root_unit :
    "A" ∈ allUnitsF (FSTree.node ["A"] [])
    ∧ discoverModel (FSTree.node ["A"] []) = [] := by
  constructor
  · simp [allUnitsF, allUnitsL]
  · rfl

/-- C10: passing `None` to `Bundle.add` is silently skipped — no error, and
the member records, their order, and the object cache are all exactly as
before — while an argument that is neither treant, bundle, list, existing
path nor string raises `TypeError`. -/
theorem add_none_skipped_bad_raises (s : BundleState) :
    bundleAddFull [AddInput.noneInput] s = .ok s
    ∧ bundleAddFull [AddInput.badInput] s = .error .typeError := by
  constructor <;> simp [bundleAddFull, bundleAddList]

end Datreant
